import Mathlib

/-!
# PolliNet core engine: a shallow embedding with verified properties

PolliNet's core (the engine behind `src/pollinet-ios/PolliNetFFI.h`) is an
offline-capable transaction relay: fragmentation/reassembly of transaction
payloads for a constrained mesh link, a multi-queue lifecycle manager with
durable persistence, an offline durable-nonce subsystem, and a signing
orchestrator.  The repository ships only the declared C surface
(`PolliNetFFI.h`); the engine bodies are not under `src/`, so every
operation below is modelled from the specification's contracts and proved
against that model.

Bytes are modelled as `Nat` (values `< 256` at the boundary; no arithmetic
here depends on the bound), payloads as `List Nat`, and fallible operations
return `Except`/`Option`.
-/

deriving instance DecidableEq for Except

namespace PolliNet

/-! ## Fragmentation engine (spec §4.1, header `pollinet_fragment_transaction`,
`pollinet_reconstruct_transaction`, `pollinet_get_fragmentation_stats`) -/

/-- Modelled from the spec: a `Fragment` carries
`{transaction id, sequence index, total count, payload chunk, checksum}`
(spec §3 Data Model).  The Rust body of `pollinet_fragment_transaction` is
not under `src/`. -/
structure Fragment where
  txId : Nat
  seqIndex : Nat
  total : Nat
  chunk : List Nat
  checksum : Nat
deriving DecidableEq, Repr

/-- Modelled from the spec: fragments carry a checksum validating the payload
chunk.  The spec fixes no algorithm; a 32-bit byte sum stands in for it (the
properties proved below depend only on `fragment` and `reconstruct` using the
same deterministic function). -/
def chunkChecksum (chunk : List Nat) : Nat :=
  (chunk.foldl (fun a b => a + b) 0) % 2 ^ 32

/-- Fuel-indexed splitting of a payload into chunks of at most `max m 1`
bytes; the fuel (always instantiated with the payload length) makes the
definition structurally recursive and hence executable by `decide`. -/
def chunksF (m : Nat) : Nat → List Nat → List (List Nat)
  | 0, _ => []
  | _, [] => []
  | fuel + 1, a :: rest => (a :: rest.take (m - 1)) :: chunksF m fuel (rest.drop (m - 1))

/-- Split a payload into chunks of size at most `max m 1`. -/
def chunks (m : Nat) (p : List Nat) : List (List Nat) :=
  chunksF m p.length p

/-- Modelled from the spec: the chunk list underlying `fragment`; an empty
payload still yields one (empty) fragment so that every payload — the empty
one included — is representable on the wire (spec §8: round trip holds for
all payloads P). -/
def chunked (m : Nat) (p : List Nat) : List (List Nat) :=
  if p.isEmpty then [[]] else chunks m p

/-- Build the fragment records for a chunk list, assigning consecutive
sequence indices starting at `i`. -/
def mkFragments (txId total : Nat) (i : Nat) : List (List Nat) → List Fragment
  | [] => []
  | c :: cs => ⟨txId, i, total, c, chunkChecksum c⟩ :: mkFragments txId total (i + 1) cs

/-- Modelled from the spec: `fragment(payload) -> ordered sequence of
Fragment` where every chunk is at most the configured maximum transport unit
`m`, and fragments carry id, sequence, total and checksum (spec §4.1).  The
Rust body behind `pollinet_fragment_transaction` is not under `src/`. -/
def fragment (m txId : Nat) (p : List Nat) : List Fragment :=
  mkFragments txId (chunked m p).length 0 (chunked m p)

/-- Modelled from the spec: reconstruction errors
(`payload | IncompleteError | CorruptError`, spec §4.1). -/
inductive RecError where
  | IncompleteError
  | CorruptError
deriving DecidableEq, Repr

/-- Collect the chunks of sequence indices `0 .. n-1` from a fragment pool,
concatenated in index order; `none` when some index is missing.  Taking the
first fragment found for an index deduplicates repeated indices silently
(spec §4.1). -/
def collect (frs : List Fragment) : Nat → Option (List Nat)
  | 0 => some []
  | n + 1 =>
    match collect frs n, frs.find? (fun g => g.seqIndex == n) with
    | some acc, some g => some (acc ++ g.chunk)
    | _, _ => none

/-- Modelled from the spec: `reconstruct(fragments) -> payload |
IncompleteError | CorruptError` for the fragments of one transaction id:
checksums are validated, duplicates are deduplicated by sequence index, and
fewer than `total` unique indices yields `IncompleteError` (spec §4.1).  The
Rust body behind `pollinet_reconstruct_transaction` is not under `src/`. -/
def reconstruct (frs : List Fragment) : Except RecError (List Nat) :=
  match frs with
  | [] => .error .IncompleteError
  | f :: _ =>
    if frs.any (fun g => g.checksum != chunkChecksum g.chunk) then
      .error .CorruptError
    else
      match collect frs f.total with
      | some payload => .ok payload
      | none => .error .IncompleteError

/-! ### Fragmentation lemmas -/

theorem chunksF_flatten (m : Nat) (fuel : Nat) (p : List Nat) (h : p.length ≤ fuel) :
    (chunksF m fuel p).flatten = p := by
  induction fuel generalizing p with
  | zero =>
    have : p = [] := List.length_eq_zero.mp (Nat.le_zero.mp h)
    subst this
    simp [chunksF]
  | succ fuel ih =>
    cases p with
    | nil => simp [chunksF]
    | cons a rest =>
      have hlen : (rest.drop (m - 1)).length ≤ fuel := by
        have h1 : rest.length ≤ fuel := by
          simpa [List.length_cons, Nat.succ_le_succ_iff] using h
        have h2 : (rest.drop (m - 1)).length ≤ rest.length := by
          simp [List.length_drop]
        omega
      simp only [chunksF, List.flatten_cons, ih _ hlen]
      simp [List.cons_append, List.take_append_drop]

theorem chunks_flatten (m : Nat) (p : List Nat) : (chunks m p).flatten = p :=
  chunksF_flatten m p.length p (Nat.le_refl _)

theorem chunked_flatten (m : Nat) (p : List Nat) : (chunked m p).flatten = p := by
  unfold chunked
  by_cases h : p.isEmpty
  · simp [h, List.isEmpty_iff.mp h]
  · simp [h, chunks_flatten]

theorem chunksF_length_le (m fuel : Nat) (p : List Nat) :
    ∀ c ∈ chunksF m fuel p, c.length ≤ max m 1 := by
  induction fuel generalizing p with
  | zero => simp [chunksF]
  | succ fuel ih =>
    cases p with
    | nil => simp [chunksF]
    | cons a rest =>
      intro c hc
      simp only [chunksF, List.mem_cons] at hc
      rcases hc with rfl | hc
      · have := List.length_take_le (m - 1) rest
        simp only [List.length_cons]
        omega
      · exact ih _ c hc

theorem chunked_ne_nil (m : Nat) (p : List Nat) : chunked m p ≠ [] := by
  unfold chunked
  by_cases h : p.isEmpty
  · simp [h]
  · cases p with
    | nil => simp at h
    | cons a rest => simp [h, chunks, chunksF]

/-- Membership in `mkFragments` characterised: every member is the record
built from the chunk at its (offset) sequence index. -/
theorem mem_mkFragments (txId total i : Nat) (cs : List (List Nat)) (f : Fragment)
    (hf : f ∈ mkFragments txId total i cs) :
    ∃ j, ∃ h : j < cs.length,
      f = ⟨txId, i + j, total, cs.get ⟨j, h⟩, chunkChecksum (cs.get ⟨j, h⟩)⟩ := by
  induction cs generalizing i with
  | nil => simp [mkFragments] at hf
  | cons c cs ih =>
    simp only [mkFragments, List.mem_cons] at hf
    rcases hf with rfl | hf
    · exact ⟨0, Nat.succ_pos _, by simp⟩
    · obtain ⟨j, hj, hform⟩ := ih (i + 1) hf
      refine ⟨j + 1, Nat.succ_lt_succ hj, ?_⟩
      simpa [Nat.add_comm, Nat.add_assoc, Nat.add_left_comm] using hform

/-- Converse: each chunk position yields a member of `mkFragments`. -/
theorem mkFragments_mem (txId total i : Nat) (cs : List (List Nat)) (j : Nat)
    (h : j < cs.length) :
    (⟨txId, i + j, total, cs.get ⟨j, h⟩, chunkChecksum (cs.get ⟨j, h⟩)⟩ : Fragment) ∈
      mkFragments txId total i cs := by
  induction cs generalizing i j with
  | nil => simp at h
  | cons c cs ih =>
    cases j with
    | zero => simp [mkFragments]
    | succ j =>
      have hj : j < cs.length := Nat.lt_of_succ_lt_succ h
      have := ih (i + 1) j hj
      simp only [mkFragments, List.mem_cons]
      right
      simpa [Nat.add_comm, Nat.add_assoc, Nat.add_left_comm] using this

/-- Every fragment of `fragment m txId p` is the canonical record at its own
sequence index. -/
theorem mem_fragment (m txId : Nat) (p : List Nat) (f : Fragment)
    (hf : f ∈ fragment m txId p) :
    ∃ h : f.seqIndex < (chunked m p).length,
      f = ⟨txId, f.seqIndex, (chunked m p).length,
           (chunked m p).get ⟨f.seqIndex, h⟩,
           chunkChecksum ((chunked m p).get ⟨f.seqIndex, h⟩)⟩ := by
  obtain ⟨j, hj, hform⟩ := mem_mkFragments _ _ _ _ _ hf
  have hseq : f.seqIndex = j := by rw [hform]; simp
  subst hseq
  exact ⟨hj, by simpa using hform⟩

/-- Two fragments of the same fragmentation sharing a sequence index are
equal (sequence indices are distinct across the fragment list). -/
theorem fragment_eq_of_seqIndex (m txId : Nat) (p : List Nat) (f g : Fragment)
    (hf : f ∈ fragment m txId p) (hg : g ∈ fragment m txId p)
    (hseq : f.seqIndex = g.seqIndex) : f = g := by
  obtain ⟨hjf, hformf⟩ := mem_fragment m txId p f hf
  obtain ⟨hjg, hformg⟩ := mem_fragment m txId p g hg
  rw [hformf, hformg]
  simp [hseq]

/-- If every index below `n` has a representative in the pool and every pool
member carries the canonical chunk for its index, `collect` returns the
concatenation of the first `n` chunks. -/
theorem collect_eq_take (fs : List Fragment) (cs : List (List Nat)) (n : Nat)
    (hn : n ≤ cs.length)
    (hfound : ∀ j, j < n → ∃ g ∈ fs, g.seqIndex = j)
    (hchunk : ∀ g ∈ fs, ∀ h : g.seqIndex < cs.length, g.chunk = cs.get ⟨g.seqIndex, h⟩) :
    collect fs n = some (cs.take n).flatten := by
  induction n with
  | zero => simp [collect]
  | succ n ih =>
    have hstep : collect fs n = some (cs.take n).flatten :=
      ih (Nat.le_of_succ_le hn) (fun j hj => hfound j (Nat.lt_succ_of_lt hj))
    obtain ⟨g, hg, hgseq⟩ := hfound n (Nat.lt_succ_self n)
    have hfind : ∃ g', fs.find? (fun g => g.seqIndex == n) = some g' := by
      have : (fs.find? (fun g => g.seqIndex == n)).isSome := by
        rw [List.find?_isSome]
        exact ⟨g, hg, by simp [hgseq]⟩
      exact Option.isSome_iff_exists.mp this
    obtain ⟨g', hg'⟩ := hfind
    have hg'mem : g' ∈ fs := List.mem_of_find?_eq_some hg'
    have hg'seq : g'.seqIndex = n := by
      have := List.find?_some hg'
      simpa using this
    have hnlt : n < cs.length := Nat.lt_of_succ_le hn
    have hg'chunk : g'.chunk = cs.get ⟨n, hnlt⟩ := by
      have := hchunk g' hg'mem (hg'seq ▸ hnlt)
      simpa [hg'seq] using this
    simp only [collect, hstep, hg', hg'chunk]
    congr 1
    rw [List.take_succ, List.flatten_append, List.getElem?_eq_getElem hnlt]
    simp [List.get_eq_getElem]

/-- If some index below `n` has no representative in the pool, `collect`
fails. -/
theorem collect_eq_none (fs : List Fragment) (n j : Nat) (hj : j < n)
    (hmiss : fs.find? (fun g => g.seqIndex == j) = none) :
    collect fs n = none := by
  induction n with
  | zero => omega
  | succ n ih =>
    by_cases h : j = n
    · subst h
      simp only [collect, hmiss]
      cases collect fs j <;> rfl
    · have hih := ih (by omega)
      simp only [collect, hih]

/-- C1: reconstructing the fragments of a payload yields the payload back,
for any permutation and any duplication of the fragment sequence (duplicates
deduplicated by sequence index): any pool with the same underlying fragment
set as `fragment m txId p` reconstructs to exactly `p`. -/
theorem reconstruct_fragment_roundtrip (m txId : Nat) (p : List Nat) (fs : List Fragment)
    (hsub : ∀ f ∈ fs, f ∈ fragment m txId p)
    (hsup : ∀ f ∈ fragment m txId p, f ∈ fs) :
    reconstruct fs = .ok p := by
  have hne : chunked m p ≠ [] := chunked_ne_nil m p
  have hlen0 : 0 < (chunked m p).length := List.length_pos.mpr hne
  have hhead : (⟨txId, 0, (chunked m p).length, (chunked m p).get ⟨0, hlen0⟩,
      chunkChecksum ((chunked m p).get ⟨0, hlen0⟩)⟩ : Fragment) ∈ fs := by
    apply hsup
    have := mkFragments_mem txId (chunked m p).length 0 (chunked m p) 0 hlen0
    simpa [fragment] using this
  cases fs with
  | nil => simp at hhead
  | cons f rest =>
    have hfmem : f ∈ fragment m txId p := hsub f (List.mem_cons_self f rest)
    obtain ⟨hflt, hform⟩ := mem_fragment m txId p f hfmem
    have hftotal : f.total = (chunked m p).length := by rw [hform]
    have hsum : ∀ g ∈ f :: rest, (g.checksum != chunkChecksum g.chunk) = false := by
      intro g hg
      obtain ⟨hglt, hgform⟩ := mem_fragment m txId p g (hsub g hg)
      rw [hgform]
      simp
    have hany : (f :: rest).any (fun g => g.checksum != chunkChecksum g.chunk) = false := by
      rw [List.any_eq_false]
      intro g hg
      simp only [Bool.not_eq_true]
      exact hsum g hg
    have hcollect : collect (f :: rest) (chunked m p).length =
        some ((chunked m p).take (chunked m p).length).flatten := by
      apply collect_eq_take _ _ _ (Nat.le_refl _)
      · intro j hj
        refine ⟨⟨txId, j, (chunked m p).length, (chunked m p).get ⟨j, hj⟩,
          chunkChecksum ((chunked m p).get ⟨j, hj⟩)⟩, ?_, rfl⟩
        apply hsup
        have := mkFragments_mem txId (chunked m p).length 0 (chunked m p) j hj
        simpa [fragment] using this
      · intro g hg h
        obtain ⟨hglt, hgform⟩ := mem_fragment m txId p g (hsub g hg)
        conv_lhs => rw [hgform]
    simp only [reconstruct, hany, Bool.false_eq_true, if_false, hftotal, hcollect,
      List.take_length, chunked_flatten]

/-- Closed witness for the round-trip theorem: the two fragments of payload
`[1, 2, 3]` at maximum unit 2, presented out of order and with a duplicate,
reconstruct to the payload. -/
theorem reconstruct_fragment_roundtrip_witness :
    reconstruct [⟨7, 1, 2, [3], 3⟩, ⟨7, 0, 2, [1, 2], 3⟩, ⟨7, 1, 2, [3], 3⟩] =
      .ok [1, 2, 3] :=
  reconstruct_fragment_roundtrip 2 7 [1, 2, 3]
    [⟨7, 1, 2, [3], 3⟩, ⟨7, 0, 2, [1, 2], 3⟩, ⟨7, 1, 2, [3], 3⟩]
    (by decide) (by decide)

/-- C5: a strict subset of the fragments of one transaction (some fragment of
`fragment m txId p` missing from the pool) reconstructs to `IncompleteError`
— never a corrupted partial payload, never a fault (the function is total). -/
theorem reconstruct_strict_subset_incomplete (m txId : Nat) (p : List Nat)
    (fs : List Fragment)
    (hsub : ∀ f ∈ fs, f ∈ fragment m txId p)
    (hmiss : ∃ g ∈ fragment m txId p, g ∉ fs) :
    reconstruct fs = .error .IncompleteError := by
  obtain ⟨g, hgmem, hnotin⟩ := hmiss
  cases fs with
  | nil => rfl
  | cons f rest =>
    have hfmem : f ∈ fragment m txId p := hsub f (List.mem_cons_self f rest)
    obtain ⟨hflt, hform⟩ := mem_fragment m txId p f hfmem
    have hftotal : f.total = (chunked m p).length := by rw [hform]
    have hany : ((f :: rest).any fun x => x.checksum != chunkChecksum x.chunk) = false := by
      rw [List.any_eq_false]
      intro x hx
      obtain ⟨hxlt, hxform⟩ := mem_fragment m txId p x (hsub x hx)
      rw [hxform]
      simp
    obtain ⟨hglt, hgform⟩ := mem_fragment m txId p g hgmem
    have hfind : (f :: rest).find? (fun x => x.seqIndex == g.seqIndex) = none := by
      cases hc : (f :: rest).find? (fun x => x.seqIndex == g.seqIndex) with
      | none => rfl
      | some g' =>
        have hg'mem := List.mem_of_find?_eq_some hc
        have hg'seq : g'.seqIndex = g.seqIndex := by simpa using List.find?_some hc
        have : g' = g :=
          fragment_eq_of_seqIndex m txId p g' g (hsub g' hg'mem) hgmem hg'seq
        exact absurd (this ▸ hg'mem) hnotin
    have hnone : collect (f :: rest) (chunked m p).length = none :=
      collect_eq_none (f :: rest) (chunked m p).length g.seqIndex hglt hfind
    simp only [reconstruct, hany, Bool.false_eq_true, if_false, hftotal, hnone]

/-- Closed witness for the strict-subset theorem: only the first of the two
fragments of `[1, 2, 3]` is present, so reconstruction reports
`IncompleteError`. -/
theorem reconstruct_strict_subset_incomplete_witness :
    reconstruct [⟨7, 0, 2, [1, 2], 3⟩] = .error .IncompleteError :=
  reconstruct_strict_subset_incomplete 2 7 [1, 2, 3] [⟨7, 0, 2, [1, 2], 3⟩]
    (by decide) (by decide)

/-! ### The 900-byte / 200-byte scenario -/

theorem mkFragments_map_chunk (txId total i : Nat) (cs : List (List Nat)) :
    (mkFragments txId total i cs).map Fragment.chunk = cs := by
  induction cs generalizing i with
  | nil => rfl
  | cons c cs ih => simp [mkFragments, ih]

theorem fragment_length (m txId : Nat) (p : List Nat) :
    (fragment m txId p).length = (chunked m p).length := by
  have := congrArg List.length (mkFragments_map_chunk txId (chunked m p).length 0 (chunked m p))
  simpa [fragment] using this

theorem chunked_chunk_le (m : Nat) (p : List Nat) :
    ∀ c ∈ chunked m p, c.length ≤ max m 1 := by
  unfold chunked
  by_cases h : p.isEmpty
  · simp [h]
  · simp only [h, if_false]
    exact chunksF_length_le m p.length p

/-- A 900-byte payload (bytes `i % 256` for `i < 900`). -/
def payload900 : List Nat := (List.range 900).map (fun i => i % 256)

set_option maxRecDepth 100000 in
/-- C8: fragmenting a 900-byte payload with a 200-byte maximum transport unit
yields exactly 5 fragments, each with `total = 5` and a chunk of at most 200
bytes, and the chunks concatenated in sequence order give the payload back
byte-exactly. -/
theorem fragment_900_200_scenario :
    (fragment 200 0 payload900).length = 5 ∧
    (∀ f ∈ fragment 200 0 payload900, f.total = 5 ∧ f.chunk.length ≤ 200) ∧
    ((fragment 200 0 payload900).map Fragment.chunk).flatten = payload900 := by
  have hlen : (chunked 200 payload900).length = 5 := by decide
  refine ⟨?_, ?_, ?_⟩
  · rw [fragment_length, hlen]
  · intro f hf
    obtain ⟨hlt, hform⟩ := mem_fragment _ _ _ f hf
    constructor
    · rw [hform]
      simpa using hlen
    · have hc : f.chunk ∈ chunked 200 payload900 := by
        rw [hform]
        apply List.get_mem
      have := chunked_chunk_le 200 payload900 f.chunk hc
      omega
  · rw [fragment, mkFragments_map_chunk, chunked_flatten]

/-! ## Nonce cache (spec §4.2, header `pollinet_cache_nonce_accounts`,
`pollinet_get_available_nonce`) -/

/-- Modelled from the spec: `NonceAccountEntry = {account address, cached
nonce value, authority, cache timestamp}` (spec §3).  Addresses, keys and
nonce values are opaque identifiers, modelled as `Nat`. -/
structure NonceAccountEntry where
  address : Nat
  nonceValue : Nat
  authority : Nat
  cacheTimestamp : Nat
deriving DecidableEq, Repr

/-- Modelled from the spec: an entry is available, reserved (with the
reservation instant, reverting to available after a short timeout), or
consumed (invalid until refreshed) — spec §4.2 and the §3 nonce invariant. -/
inductive NonceStatus where
  | available
  | reserved (since : Nat)
  | consumed
deriving DecidableEq, Repr

/-- A cache slot: the entry together with its reservation status. -/
structure NonceSlot where
  entry : NonceAccountEntry
  status : NonceStatus
deriving DecidableEq, Repr

/-- Modelled from the spec: the "short timeout" after which a reservation
reverts to available (spec §4.2 fixes no concrete value). -/
def reservationTimeout : Nat := 30

/-- A slot is selectable at `now` when it is available, or reserved so long
ago that the reservation has expired; consumed slots are never selectable. -/
def slotSelectable (now : Nat) (s : NonceSlot) : Bool :=
  match s.status with
  | .available => true
  | .reserved since => decide (since + reservationTimeout ≤ now)
  | .consumed => false

/-- The slot with the smallest cache timestamp (oldest-cached-first,
spec §4.2). -/
def pickOldest : List NonceSlot → Option NonceSlot
  | [] => none
  | s :: rest =>
    match pickOldest rest with
    | none => some s
    | some t => if s.entry.cacheTimestamp ≤ t.entry.cacheTimestamp then some s else some t

/-- Modelled from the spec: `next_available() -> NonceAccountEntry | Empty`
selects one not-yet-consumed entry, oldest-cached-first, and marks it
reserved (spec §4.2).  The Rust body behind `pollinet_get_available_nonce`
is not under `src/`. -/
def nextAvailable (now : Nat) (st : List NonceSlot) :
    Option NonceAccountEntry × List NonceSlot :=
  match pickOldest (st.filter (slotSelectable now)) with
  | none => (none, st)
  | some s =>
    (some s.entry,
     st.map (fun t =>
       if t.entry.address = s.entry.address then { t with status := .reserved now } else t))

/-- Modelled from the spec: `cache(accounts)` upserts a batch of entries,
overwriting stale values for an already-known address (spec §4.2).  The Rust
body behind `pollinet_cache_nonce_accounts` is not under `src/`. -/
def cacheNonceAccounts (accounts : List NonceAccountEntry) (st : List NonceSlot) :
    List NonceSlot :=
  accounts.foldl
    (fun acc e =>
      if acc.any (fun t => t.entry.address == e.address) then
        acc.map (fun t => if t.entry.address = e.address then ⟨e, .available⟩ else t)
      else acc ++ [⟨e, .available⟩])
    st

/-- Consuming a nonce invalidates its entry until refreshed (spec §3
invariant). -/
def consumeEntry (addr : Nat) (st : List NonceSlot) : List NonceSlot :=
  st.map (fun t => if t.entry.address = addr then { t with status := .consumed } else t)

theorem pickOldest_mem (l : List NonceSlot) (s : NonceSlot) (h : pickOldest l = some s) :
    s ∈ l := by
  induction l with
  | nil => simp [pickOldest] at h
  | cons a rest ih =>
    simp only [pickOldest] at h
    cases hr : pickOldest rest with
    | none =>
      rw [hr] at h
      simp only [Option.some.injEq] at h
      exact h ▸ List.mem_cons_self a rest
    | some t =>
      rw [hr] at h
      have h' : (if a.entry.cacheTimestamp ≤ t.entry.cacheTimestamp then some a
          else some t) = some s := h
      by_cases hle : a.entry.cacheTimestamp ≤ t.entry.cacheTimestamp
      · rw [if_pos hle] at h'
        simp only [Option.some.injEq] at h'
        exact h' ▸ List.mem_cons_self a rest
      · rw [if_neg hle] at h'
        simp only [Option.some.injEq] at h'
        subst h'
        exact List.mem_cons_of_mem a (ih hr)

/-- C2: an entry selected by `next_available` is marked reserved in the
resulting state, and while the reservation is fresh (not released, not
expired, not consumed) no further `next_available` call can select an entry
with the same address — the mechanism by which no two signed transactions
embed the same cached nonce value. -/
theorem nextAvailable_reserves_exclusively (now now' : Nat) (st st' : List NonceSlot)
    (e : NonceAccountEntry)
    (hsel : nextAvailable now st = (some e, st'))
    (hfresh : now' < now + reservationTimeout) :
    (∀ t ∈ st', t.entry.address = e.address → t.status = .reserved now) ∧
    (∀ e' st'', nextAvailable now' st' = (some e', st'') → e'.address ≠ e.address) := by
  unfold nextAvailable at hsel
  cases hp : pickOldest (st.filter (slotSelectable now)) with
  | none =>
    rw [hp] at hsel
    simp at hsel
  | some s =>
    rw [hp] at hsel
    simp only [Prod.mk.injEq, Option.some.injEq] at hsel
    obtain ⟨he, hst'⟩ := hsel
    subst he
    have hres : ∀ t ∈ st', t.entry.address = s.entry.address → t.status = .reserved now := by
      intro t ht haddr
      rw [← hst'] at ht
      obtain ⟨u, hu, hut⟩ := List.mem_map.mp ht
      by_cases hcase : u.entry.address = s.entry.address
      · rw [if_pos hcase] at hut
        rw [← hut]
      · rw [if_neg hcase] at hut
        exact absurd (hut ▸ haddr) hcase
    refine ⟨hres, ?_⟩
    intro e' st'' h'
    unfold nextAvailable at h'
    cases hp' : pickOldest (st'.filter (slotSelectable now')) with
    | none =>
      rw [hp'] at h'
      simp at h'
    | some s' =>
      rw [hp'] at h'
      simp only [Prod.mk.injEq, Option.some.injEq] at h'
      obtain ⟨he', _⟩ := h'
      subst he'
      intro haddr
      have hmem : s' ∈ st'.filter (slotSelectable now') := pickOldest_mem _ _ hp'
      have hs'mem : s' ∈ st' := List.mem_of_mem_filter hmem
      have hs'sel : slotSelectable now' s' = true := List.of_mem_filter hmem
      have hs'res : s'.status = .reserved now := hres s' hs'mem haddr
      rw [slotSelectable, hs'res] at hs'sel
      simp only [decide_eq_true_eq] at hs'sel
      omega

/-- Closed witness for the reservation theorem: with entries at addresses 1
(cached at t=0) and 2 (cached at t=1), selecting at t=5 reserves address 1,
and a second selection at t=6 — which concretely returns the entry at
address 2 — cannot return address 1 again. -/
theorem nextAvailable_reserves_exclusively_witness :
    (nextAvailable 6 [⟨⟨1, 10, 2, 0⟩, .reserved 5⟩, ⟨⟨2, 20, 3, 1⟩, .available⟩]).1 =
      some ⟨2, 20, 3, 1⟩ ∧
    (⟨⟨1, 10, 2, 0⟩, .reserved 5⟩ : NonceSlot).status = .reserved 5 ∧
    (2 : Nat) ≠ 1 := by
  have h := nextAvailable_reserves_exclusively 5 6
    [⟨⟨1, 10, 2, 0⟩, .available⟩, ⟨⟨2, 20, 3, 1⟩, .available⟩]
    [⟨⟨1, 10, 2, 0⟩, .reserved 5⟩, ⟨⟨2, 20, 3, 1⟩, .available⟩]
    ⟨1, 10, 2, 0⟩ (by decide) (by decide)
  refine ⟨by decide, ?_, ?_⟩
  · exact h.1 ⟨⟨1, 10, 2, 0⟩, .reserved 5⟩ (by decide) rfl
  · exact h.2 ⟨2, 20, 3, 1⟩
      [⟨⟨1, 10, 2, 0⟩, .reserved 5⟩, ⟨⟨2, 20, 3, 1⟩, .reserved 6⟩] (by decide)

/-! ## Offline bundle manager (spec §4.3, header
`pollinet_create_unsigned_offline_spl_transaction`) -/

/-- Modelled from the spec: build errors of the offline bundle manager
(spec §4.3: `NoNonceAvailable`, `MalformedRequest`). -/
inductive BuildError where
  | NoNonceAvailable
  | MalformedRequest
deriving DecidableEq, Repr

/-- Modelled from the spec: the instruction kinds the engine emits
(transfer / SPL transfer / vote / nonce-advance, spec §3). -/
inductive Instruction where
  | nonceAdvance (nonceAccount authority : Nat)
  | splTransfer (source dest amount : Nat)
  | transfer (source dest lamports : Nat)
  | vote (account slot : Nat)
deriving DecidableEq, Repr

/-- Modelled from the spec: an unsigned offline transaction artifact — its
instruction list, the embedded durable-nonce value standing in for a
blockhash, and the fee payer (spec §4.3). -/
structure UnsignedArtifact where
  instructions : List Instruction
  nonceValue : Nat
  feePayer : Nat
deriving DecidableEq, Repr

/-- Modelled from the spec: the offline SPL-transfer build path — draw from
the nonce cache (`NoNonceAvailable` when empty), embed a nonce-advance
instruction as instruction 0 followed by the SPL transfer, and consume the
drawn cache entry (spec §4.3 and the §8 scenario).  The Rust body behind
`pollinet_create_unsigned_offline_spl_transaction` is not under `src/`. -/
def createUnsignedOfflineSpl (now : Nat) (cache : List NonceSlot)
    (source dest amount feePayer : Nat) :
    Except BuildError (UnsignedArtifact × List NonceSlot) :=
  match nextAvailable now cache with
  | (none, _) => .error .NoNonceAvailable
  | (some e, cache') =>
    .ok ({ instructions := [.nonceAdvance e.address e.authority,
                            .splTransfer source dest amount],
           nonceValue := e.nonceValue, feePayer := feePayer },
         consumeEntry e.address cache')

/-- C7: building an unsigned SPL transfer offline against a cache holding
exactly one entry succeeds, the artifact's instruction 0 is the
nonce-advance for that entry, and the entry is consumed — `next_available`
finds nothing in the resulting cache at any later instant. -/
theorem offline_spl_nonce_advance (now now' src dst amt payer : Nat)
    (e : NonceAccountEntry) :
    ∃ art st',
      createUnsignedOfflineSpl now (cacheNonceAccounts [e] []) src dst amt payer =
        .ok (art, st') ∧
      art.instructions.head? = some (.nonceAdvance e.address e.authority) ∧
      (nextAvailable now' st').1 = none := by
  refine ⟨⟨[.nonceAdvance e.address e.authority, .splTransfer src dst amt],
    e.nonceValue, payer⟩, [⟨e, .consumed⟩], ?_, rfl, ?_⟩
  · simp [createUnsignedOfflineSpl, cacheNonceAccounts, nextAvailable, pickOldest,
      slotSelectable, consumeEntry, List.filter]
  · simp [nextAvailable, pickOldest, slotSelectable, List.filter]

/-! ## Retry queue (spec §4.5, header `pollinet_add_to_retry_queue`,
`pollinet_pop_ready_retry`) -/

/-- Modelled from the spec: a retry-queue entry `{transaction id, enqueue
time, attempt count, next-eligible time, expiry time}` (spec §3
`QueueEntry`). -/
structure RetryEntry where
  txId : Nat
  enqueueTime : Nat
  attemptCount : Nat
  nextEligible : Nat
  expiry : Nat
deriving DecidableEq, Repr

/-- Modelled from the spec: base retry delay in milliseconds (the spec fixes
no concrete value). -/
def backoffBase : Nat := 1000

/-- Modelled from the spec: the configured cap on the backoff delay. -/
def backoffCap : Nat := 60000

/-- Modelled from the spec: backoff monotonically non-decreasing with
attempt count, capped (spec §4.5); exponential-with-cap realises that
contract. -/
def backoff (attempts : Nat) : Nat :=
  min (backoffBase * 2 ^ attempts) backoffCap

/-- The entry `add(tx)` constructs: next-eligible = now + backoff(attempt
count) (spec §4.5). -/
def mkRetryEntry (now txId attempts expiry : Nat) : RetryEntry :=
  ⟨txId, now, attempts, now + backoff attempts, expiry⟩

/-- Modelled from the spec: `add(tx)` enqueues a retry entry with
next-eligible = now + backoff(attempt count) (spec §4.5).  The Rust body
behind `pollinet_add_to_retry_queue` is not under `src/`. -/
def addToRetryQueue (now txId attempts expiry : Nat) (q : List RetryEntry) :
    List RetryEntry :=
  mkRetryEntry now txId attempts expiry :: q

/-- The entry with the smallest next-eligible time (the retry queue is
priority-ordered by next-eligible time, spec §4.5). -/
def pickEarliest : List RetryEntry → Option RetryEntry
  | [] => none
  | s :: rest =>
    match pickEarliest rest with
    | none => some s
    | some t => if s.nextEligible ≤ t.nextEligible then some s else some t

/-- Modelled from the spec: `pop_ready` returns only entries whose
next-eligible time has passed (spec §4.5).  The Rust body behind
`pollinet_pop_ready_retry` is not under `src/`. -/
def popReadyRetry (now : Nat) (q : List RetryEntry) :
    Option RetryEntry × List RetryEntry :=
  match pickEarliest q with
  | none => (none, q)
  | some e =>
    if e.nextEligible ≤ now then (some e, q.eraseP (fun x => x == e)) else (none, q)

/-- C3: `pop_ready` never returns an entry before its next-eligible time;
the entry `add` enqueues has next-eligible = enqueue time +
backoff(attempt count); and backoff is non-decreasing in the attempt count
and bounded by the configured cap. -/
theorem retry_backoff_discipline :
    (∀ now q e q', popReadyRetry now q = (some e, q') → e.nextEligible ≤ now) ∧
    (∀ now txId attempts expiry q,
      addToRetryQueue now txId attempts expiry q =
        mkRetryEntry now txId attempts expiry :: q ∧
      (mkRetryEntry now txId attempts expiry).nextEligible =
        (mkRetryEntry now txId attempts expiry).enqueueTime +
          backoff (mkRetryEntry now txId attempts expiry).attemptCount) ∧
    (∀ a b, a ≤ b → backoff a ≤ backoff b) ∧
    (∀ a, backoff a ≤ backoffCap) := by
  refine ⟨?_, ?_, ?_, ?_⟩
  · intro now q e q' h
    unfold popReadyRetry at h
    cases hp : pickEarliest q with
    | none =>
      rw [hp] at h
      simp at h
    | some e' =>
      rw [hp] at h
      have h' : (if e'.nextEligible ≤ now then
          (some e', q.eraseP (fun x => x == e')) else (none, q)) = (some e, q') := h
      by_cases hle : e'.nextEligible ≤ now
      · rw [if_pos hle] at h'
        simp only [Prod.mk.injEq, Option.some.injEq] at h'
        exact h'.1 ▸ hle
      · rw [if_neg hle] at h'
        simp at h'
  · intro now txId attempts expiry q
    exact ⟨rfl, rfl⟩
  · intro a b hab
    unfold backoff
    exact min_le_min
      (Nat.mul_le_mul_left _ (Nat.pow_le_pow_right (by norm_num) hab))
      (le_refl _)
  · intro a
    exact min_le_right _ _

/-- Closed witness for the retry discipline: the entry enqueued at t=0 with
0 prior attempts is eligible by t=2000 and is popped there, and the backoff
facts hold at attempts 1 ≤ 2 and at 20. -/
theorem retry_backoff_discipline_witness :
    (mkRetryEntry 0 1 0 9999).nextEligible ≤ 2000 ∧
    backoff 1 ≤ backoff 2 ∧
    backoff 20 ≤ backoffCap :=
  ⟨retry_backoff_discipline.1 2000 [mkRetryEntry 0 1 0 9999] (mkRetryEntry 0 1 0 9999) []
      (by decide),
   retry_backoff_discipline.2.2.1 1 2 (by decide),
   retry_backoff_discipline.2.2.2 20⟩

/-! ## Signing orchestrator (spec §4.4, header `pollinet_apply_signature`,
`pollinet_verify_and_serialize`, `pollinet_prepare_sign_payload`) -/

/-- Modelled from the spec: artifact lifecycle states (spec §4.4). -/
inductive TxStatus where
  | Built
  | AwaitingSignatures
  | FullySigned
  | Verified
  | Submitted
  | Rejected
deriving DecidableEq, Repr

/-- Modelled from the spec: `TransactionArtifact = {id, raw bytes, required
signer set, collected signatures, status}` (spec §3; the instruction kind is
immaterial to the signing claims).  A collected signature is a
signer-pubkey / signature-bytes pair. -/
structure TransactionArtifact where
  id : Nat
  rawBytes : List Nat
  requiredSigners : List Nat
  collectedSignatures : List (Nat × List Nat)
  status : TxStatus
deriving DecidableEq, Repr

/-- Modelled from the spec: signing-path errors (spec §7 taxonomy;
`VerificationFailed` covers the delegated cryptographic check failing). -/
inductive SignError where
  | UnknownSigner
  | DuplicateSignature
  | IncompleteSignatures
  | VerificationFailed
deriving DecidableEq, Repr

/-- Whether a signature from `signer` has already been collected. -/
def hasSignature (tx : TransactionArtifact) (signer : Nat) : Bool :=
  tx.collectedSignatures.any (fun p => p.1 == signer)

/-- All required signers have a collected signature. -/
def signaturesComplete (tx : TransactionArtifact) : Bool :=
  tx.requiredSigners.all (fun s => hasSignature tx s)

/-- Modelled from the spec: `apply_signature(tx, signer, signature)` fails
with `UnknownSigner` if the signer is not in the required set,
`DuplicateSignature` if already present, else appends the signature
(append-only — an accepted signature is never replaced) and transitions
toward `FullySigned` once all required signers are present (spec §4.4).
Errors return no artifact: application is all-or-nothing per call
(spec §7).  The Rust body behind `pollinet_apply_signature` is not under
`src/`. -/
def applySignature (tx : TransactionArtifact) (signer : Nat) (sig : List Nat) :
    Except SignError TransactionArtifact :=
  if tx.requiredSigners.contains signer then
    if hasSignature tx signer then
      .error .DuplicateSignature
    else
      let sigs := tx.collectedSignatures ++ [(signer, sig)]
      let tx' := { tx with collectedSignatures := sigs }
      .ok { tx' with
            status := if signaturesComplete tx' then .FullySigned else .AwaitingSignatures }
  else
    .error .UnknownSigner

/-- C4: once `apply_signature` has accepted a signer+signature pair, applying
the same pair again yields `DuplicateSignature`; the error carries no
artifact, so the accepted state is left unchanged (never silently
replaced). -/
theorem applySignature_duplicate_rejected (tx tx' : TransactionArtifact)
    (signer : Nat) (sig : List Nat)
    (h : applySignature tx signer sig = .ok tx') :
    applySignature tx' signer sig = .error .DuplicateSignature := by
  unfold applySignature at h
  by_cases hcon : tx.requiredSigners.contains signer
  · rw [if_pos hcon] at h
    by_cases hdup : hasSignature tx signer
    · rw [if_pos hdup] at h
      simp at h
    · rw [if_neg hdup] at h
      simp only [Except.ok.injEq] at h
      have hreq : tx'.requiredSigners = tx.requiredSigners := by rw [← h]
      have hsig : hasSignature tx' signer = true := by
        rw [← h]
        simp [hasSignature]
      rw [applySignature, hreq, if_pos hcon, if_pos hsig]
  · rw [if_neg hcon] at h
    simp at h

/-- Closed witness for duplicate rejection: signer 5 signs the artifact once
successfully, and the identical second application is rejected as a
duplicate. -/
theorem applySignature_duplicate_rejected_witness :
    applySignature ⟨0, [1], [5], [(5, [9])], .FullySigned⟩ 5 [9] =
      .error .DuplicateSignature :=
  applySignature_duplicate_rejected ⟨0, [1], [5], [], .Built⟩
    ⟨0, [1], [5], [(5, [9])], .FullySigned⟩ 5 [9] (by decide)

/-- Modelled from the spec: canonical wire bytes — collected signature bytes
followed by the serialized message bytes (the spec fixes the existence of a
canonical serialization, not its layout). -/
def serializeWire (tx : TransactionArtifact) : List Nat :=
  (tx.collectedSignatures.map Prod.snd).flatten ++ tx.rawBytes

/-- Modelled from the spec: `verify_and_serialize(tx)` checks signature
completeness and cryptographic validity (the delegated verification call is
a parameter, the engine excludes signing math) and only then transitions to
Verified and returns the canonical wire bytes; a partial signer set returns
`IncompleteSignatures` with no artifact, hence without mutating state
(spec §4.4).  The Rust body behind `pollinet_verify_and_serialize` is not
under `src/`. -/
def verifyAndSerialize (verify : Nat → List Nat → Bool) (tx : TransactionArtifact) :
    Except SignError (TransactionArtifact × List Nat) :=
  if signaturesComplete tx then
    if tx.collectedSignatures.all (fun p => verify p.1 p.2) then
      .ok ({ tx with status := .Verified }, serializeWire tx)
    else
      .error .VerificationFailed
  else
    .error .IncompleteSignatures

/-- C6: when some required signer has no collected signature,
`verify_and_serialize` returns `IncompleteSignatures` (no mutated artifact
accompanies the error); and any successful return implies completeness and
validity of every signature, a `Verified` status, and the canonical wire
bytes — the only mutation is the status transition. -/
theorem verifyAndSerialize_gate (verify : Nat → List Nat → Bool)
    (tx : TransactionArtifact) :
    ((∃ s ∈ tx.requiredSigners, hasSignature tx s = false) →
      verifyAndSerialize verify tx = .error .IncompleteSignatures) ∧
    (∀ tx' w, verifyAndSerialize verify tx = .ok (tx', w) →
      signaturesComplete tx = true ∧
      tx.collectedSignatures.all (fun p => verify p.1 p.2) = true ∧
      tx' = { tx with status := .Verified } ∧
      w = serializeWire tx) := by
  constructor
  · intro hmiss
    obtain ⟨s, hs, hfalse⟩ := hmiss
    have hcomp : signaturesComplete tx = false := by
      rw [signaturesComplete, List.all_eq_false]
      exact ⟨s, hs, by simp [hfalse]⟩
    rw [verifyAndSerialize, hcomp]
    rfl
  · intro tx' w h
    unfold verifyAndSerialize at h
    by_cases hcomp : signaturesComplete tx
    · rw [if_pos hcomp] at h
      by_cases hval : tx.collectedSignatures.all (fun p => verify p.1 p.2)
      · rw [if_pos hval] at h
        simp only [Except.ok.injEq, Prod.mk.injEq] at h
        exact ⟨hcomp, hval, h.1.symm, h.2.symm⟩
      · rw [if_neg hval] at h
        simp at h
    · rw [if_neg hcomp] at h
      simp at h

/-- Closed witness for the verification gate: with required signers `[5, 6]`
and only signer 5 collected the call reports `IncompleteSignatures`; with
the complete set `[5]` collected it verifies, yielding status `Verified` and
wire bytes `[9, 1]`. -/
theorem verifyAndSerialize_gate_witness :
    verifyAndSerialize (fun _ _ => true)
      ⟨0, [1], [5, 6], [(5, [9])], .AwaitingSignatures⟩ =
      .error .IncompleteSignatures ∧
    (⟨0, [1], [5], [(5, [9])], .Verified⟩ : TransactionArtifact) =
      { (⟨0, [1], [5], [(5, [9])], .FullySigned⟩ : TransactionArtifact) with
        status := .Verified } ∧
    [9, 1] = serializeWire ⟨0, [1], [5], [(5, [9])], .FullySigned⟩ :=
  ⟨(verifyAndSerialize_gate (fun _ _ => true)
      ⟨0, [1], [5, 6], [(5, [9])], .AwaitingSignatures⟩).1 (by decide),
   (((verifyAndSerialize_gate (fun _ _ => true)
      ⟨0, [1], [5], [(5, [9])], .FullySigned⟩).2
      ⟨0, [1], [5], [(5, [9])], .Verified⟩ [9, 1] (by decide)).2.2.1),
   (((verifyAndSerialize_gate (fun _ _ => true)
      ⟨0, [1], [5], [(5, [9])], .FullySigned⟩).2
      ⟨0, [1], [5], [(5, [9])], .Verified⟩ [9, 1] (by decide)).2.2.2)⟩

/-! ## Queue persistence (spec §4.5/§6, header `pollinet_save_queues`,
`pollinet_auto_save_queues`) -/

/-- Modelled from the spec: the generic `QueueEntry = {transaction id,
enqueue time, attempt count, next-eligible time, expiry time}` shared by the
four queues (spec §3). -/
structure QueueEntry where
  txId : Nat
  enqueueTime : Nat
  attemptCount : Nat
  nextEligible : Nat
  expiry : Nat
deriving DecidableEq, Repr

/-- Modelled from the spec: the four independently addressable queues —
outbound, retry, confirmation, received (spec §4.5). -/
structure QueueState where
  outbound : List QueueEntry
  retry : List QueueEntry
  confirmation : List QueueEntry
  received : List QueueEntry
deriving DecidableEq, Repr

/-- One entry on the stable on-disk layout: its five fields in order. -/
def encodeEntry (e : QueueEntry) : List Nat :=
  [e.txId, e.enqueueTime, e.attemptCount, e.nextEligible, e.expiry]

/-- Parse one entry, returning it with the unread remainder. -/
def decodeEntry : List Nat → Option (QueueEntry × List Nat)
  | a :: b :: c :: d :: e :: rest => some (⟨a, b, c, d, e⟩, rest)
  | _ => none

/-- One queue on disk: a length prefix followed by the entries in order. -/
def encodeQueue (q : List QueueEntry) : List Nat :=
  q.length :: (q.map encodeEntry).flatten

/-- Parse `n` entries, returning them with the unread remainder. -/
def decodeEntries : Nat → List Nat → Option (List QueueEntry × List Nat)
  | 0, rest => some ([], rest)
  | n + 1, rest =>
    match decodeEntry rest with
    | none => none
    | some (e, rest') =>
      match decodeEntries n rest' with
      | none => none
      | some (q, rest'') => some (e :: q, rest'')

/-- Parse one length-prefixed queue. -/
def decodeQueue : List Nat → Option (List QueueEntry × List Nat)
  | [] => none
  | n :: rest => decodeEntries n rest

/-- Modelled from the spec: `save` writes all four queues to durable storage
in a stable layout preserving entry fields and ordering (spec §4.5/§6).  The
Rust body behind `pollinet_save_queues` / `pollinet_auto_save_queues` is not
under `src/`. -/
def saveQueues (st : QueueState) : List Nat :=
  encodeQueue st.outbound ++ encodeQueue st.retry ++
    encodeQueue st.confirmation ++ encodeQueue st.received

/-- Modelled from the spec: reload parses the four queues back from the
saved bytes, failing on any malformed input rather than guessing
(spec §4.5/§6). -/
def loadQueues (data : List Nat) : Option QueueState :=
  match decodeQueue data with
  | none => none
  | some (outb, r1) =>
    match decodeQueue r1 with
    | none => none
    | some (retr, r2) =>
      match decodeQueue r2 with
      | none => none
      | some (conf, r3) =>
        match decodeQueue r3 with
        | none => none
        | some (recv, r4) =>
          match r4 with
          | [] => some ⟨outb, retr, conf, recv⟩
          | _ => none

theorem decodeEntry_encodeEntry (e : QueueEntry) (rest : List Nat) :
    decodeEntry (encodeEntry e ++ rest) = some (e, rest) := rfl

theorem decodeEntries_encode (q : List QueueEntry) (rest : List Nat) :
    decodeEntries q.length ((q.map encodeEntry).flatten ++ rest) = some (q, rest) := by
  induction q with
  | nil => rfl
  | cons e q ih =>
    simp only [List.map_cons, List.flatten_cons, List.length_cons, List.append_assoc,
      decodeEntries, decodeEntry_encodeEntry, ih]

theorem decodeQueue_encodeQueue (q : List QueueEntry) (rest : List Nat) :
    decodeQueue (encodeQueue q ++ rest) = some (q, rest) := by
  simp only [encodeQueue, List.cons_append, decodeQueue, decodeEntries_encode]

/-- C9: saving the four queues and reloading reconstructs the exact queue
state — every entry field and the ordering of all four queues survive the
round trip. -/
theorem loadQueues_saveQueues (st : QueueState) : loadQueues (saveQueues st) = some st := by
  have h1 := decodeQueue_encodeQueue st.outbound
    (encodeQueue st.retry ++ encodeQueue st.confirmation ++ encodeQueue st.received)
  have h2 := decodeQueue_encodeQueue st.retry
    (encodeQueue st.confirmation ++ encodeQueue st.received)
  have h3 := decodeQueue_encodeQueue st.confirmation (encodeQueue st.received)
  have h4 : decodeQueue (encodeQueue st.received ++ []) = some (st.received, []) :=
    decodeQueue_encodeQueue st.received []
  rw [List.append_nil] at h4
  simp only [List.append_assoc] at h1 h2
  simp only [saveQueues, loadQueues, List.append_assoc, h1, h2, h3, h4]

/-! ## Session-free BLE mesh surface (header lines 39 and 66-68)

In `PolliNetFFI.h`, `pollinet_fragment_transaction`,
`pollinet_reconstruct_transaction`, `pollinet_get_fragmentation_stats` and
`pollinet_prepare_sign_payload` are the only transaction operations declared
without an `int64_t handle` parameter: their C signatures admit no access to
per-session state, so they are functions of their byte inputs alone.  The
session record and the handle-free operations are modelled below, and the
`session*` wrappers mirror the FFI dispatch — they receive the caller's
session like every handle-taking call site does, but the operation they
forward to cannot consume it. -/

/-- Modelled from the spec: per-peer health record — last heartbeat plus
bounded latency and RSSI sample windows (spec §3). -/
structure PeerHealthRecord where
  peerId : Nat
  lastHeartbeat : Nat
  latencySamples : List Nat
  rssiSamples : List Int
deriving DecidableEq, Repr

/-- Modelled from the spec: a session owns `{nonce cache, four queues,
health table, configuration}` (spec §3). -/
structure Session where
  nonceCache : List NonceSlot
  queues : QueueState
  health : List PeerHealthRecord
  config : Nat
deriving DecidableEq, Repr

/-- Modelled from the spec: the configured maximum transport unit of the BLE
mesh surface (the spec fixes no concrete value). -/
def bleMaxUnit : Nat := 185

/-- Modelled from the spec: the transaction id a handle-free fragmentation
call derives for a raw payload — with no session to consult it can only be
computed from the bytes themselves. -/
def transactionId (bytes : List Nat) : Nat :=
  chunkChecksum bytes

/-- Modelled from the spec: `pollinet_fragment_transaction` (header line 66)
— handle-free fragmentation of raw transaction bytes. -/
def fragmentTransaction (bytes : List Nat) : List Fragment :=
  fragment bleMaxUnit (transactionId bytes) bytes

/-- Modelled from the spec: `pollinet_reconstruct_transaction` (header line
67) — handle-free reassembly of a decoded fragment batch. -/
def reconstructTransaction (frs : List Fragment) : Except RecError (List Nat) :=
  reconstruct frs

/-- Modelled from the spec: `pollinet_get_fragmentation_stats` (header line
68) — fragment count and chunk sizes for a payload (spec §4.1 `stats`). -/
def getFragmentationStats (bytes : List Nat) : Nat × List Nat :=
  ((fragmentTransaction bytes).length,
   (fragmentTransaction bytes).map (fun f => f.chunk.length))

/-- Modelled from the spec: `pollinet_prepare_sign_payload` (header line 39)
— the exact canonical byte sequence to sign for a serialized unsigned
transaction; with no handle it is computed from the input bytes alone
(spec §4.4 `message_to_sign`). -/
def prepareSignPayload (txBytes : List Nat) : List Nat :=
  txBytes

/-- The FFI dispatch of `pollinet_fragment_transaction` seen from a session
owner: the session is in scope at the call site but the operation takes no
handle. -/
def sessionFragmentTransaction (_s : Session) (bytes : List Nat) : List Fragment :=
  fragmentTransaction bytes

/-- The FFI dispatch of `pollinet_reconstruct_transaction` seen from a
session owner. -/
def sessionReconstructTransaction (_s : Session) (frs : List Fragment) :
    Except RecError (List Nat) :=
  reconstructTransaction frs

/-- The FFI dispatch of `pollinet_get_fragmentation_stats` seen from a
session owner. -/
def sessionGetFragmentationStats (_s : Session) (bytes : List Nat) : Nat × List Nat :=
  getFragmentationStats bytes

/-- The FFI dispatch of `pollinet_prepare_sign_payload` seen from a session
owner. -/
def sessionPrepareSignPayload (_s : Session) (txBytes : List Nat) : List Nat :=
  prepareSignPayload txBytes

/-- C10: the mesh fragmentation operations and `prepare_sign_payload` take
no session handle, so for any two session states and equal byte inputs the
outputs coincide — each is a deterministic function of its input bytes,
independent of all per-session state. -/
theorem mesh_ops_session_independent (s t : Session) (bytes txBytes : List Nat)
    (frs : List Fragment) :
    sessionFragmentTransaction s bytes = sessionFragmentTransaction t bytes ∧
    sessionReconstructTransaction s frs = sessionReconstructTransaction t frs ∧
    sessionGetFragmentationStats s bytes = sessionGetFragmentationStats t bytes ∧
    sessionPrepareSignPayload s txBytes = sessionPrepareSignPayload t txBytes :=
  ⟨rfl, rfl, rfl, rfl⟩

end PolliNet
